import Mathlib

/-!
Shallow embedding of the sound-localization script
(Fig12A_Goodman_Brette_2010.py, model of Goodman and Brette 2010).

The script builds a linear audio pipeline (HRTF filtering, channel swap,
exhaustive HRTF-set filtering, gammatone filtering, a static cochlear
nonlinearity), runs a spiking simulation, and decodes the location from
the coincidence-detector spike counts by a reshape / sum / normalize /
argmax reduction.  The definitions below translate the deterministic
parts of that pipeline; theorems settle the specified properties.
-/

namespace SoundLoc

/-- A discrete-time, single-channel signal (samples are rationals). -/
def Signal : Type := ℕ → ℚ

/-- The all-zero signal, used as the out-of-range default when looking up
a channel in a multichannel bank. -/
def zeroSignal : Signal := fun _ => 0

/-- Discrete convolution of an impulse response with a signal. -/
def convolve (h x : Signal) : Signal :=
  fun n => ∑ k ∈ Finset.range (n + 1), h k * x (n - k)

/-- One HRTF: a pair of impulse responses, one per ear (line 34 of the
script picks one such pair out of the set). -/
structure HRTF where
  irLeft : Signal
  irRight : Signal

/-- hrtf.filterbank(sound) (line 36): apply the two ear impulse responses
of one HRTF to a sound; the output has 2 channels. -/
def hrtf_fb (h : HRTF) (sound : Signal) : List Signal :=
  [convolve h.irLeft sound, convolve h.irRight sound]

/-- RestructureFilterbank(source, indexmapping) (line 39): output channel
j is input channel indexmapping[j]. -/
def restructureFilterbank (source : List Signal) (indexmapping : List ℕ) :
    List Signal :=
  indexmapping.map (fun i => source.getD i zeroSignal)

/-- swapped_channels (line 39): the 2-channel HRTF output with its
channels exchanged, indexmapping = [1, 0]. -/
def swapped_channels (h : HRTF) (sound : Signal) : List Signal :=
  restructureFilterbank (hrtf_fb h sound) [1, 0]

/-- An HRTF set: numIndices spatial locations, each with an HRTF
(a pair of ear impulse responses). -/
structure HRTFSet where
  numIndices : ℕ
  hrtf : ℕ → HRTF

/-- Repeat(source, k) (line 42): every channel of the source repeated k
times consecutively, as numpy repeat does. -/
def repeatChannels (source : List Signal) (k : ℕ) : List Signal :=
  source.flatMap (fun c => List.replicate k c)

/-- The serialized impulse responses of an HRTF set: for each ear, one
response per location, giving 2 * numIndices responses in total. -/
def hrtfsetImpulseResponses (hs : HRTFSet) : List Signal :=
  ((List.range hs.numIndices).map (fun i => (hs.hrtf i).irLeft)) ++
    ((List.range hs.numIndices).map (fun i => (hs.hrtf i).irRight))

/-- An FIR filterbank: channel i of the output is the convolution of
impulse response i with channel i of the source. -/
def firFilterbank (irs source : List Signal) : List Signal :=
  (irs.zip source).map (fun p => convolve p.1 p.2)

/-- hrtfset.filterbank(Repeat(input, numIndices)) (line 42): every
impulse response of the set applied to the repeated input channels. -/
def hrtfset_fb (hs : HRTFSet) (input : List Signal) : List Signal :=
  firFilterbank (hrtfsetImpulseResponses hs) (repeatChannels input hs.numIndices)

/-! ### The cochlear static nonlinearity (line 53) -/

/-- numpy clip(x, lo, Inf): clipping with a lower bound only. -/
noncomputable def clipLower (x lo : ℝ) : ℝ := max x lo

/-- The static nonlinearity of the cochlea stage (line 53):
x maps to 15 * clip(x, 0, Inf) ** (1/3). -/
noncomputable def cochleaFn (x : ℝ) : ℝ :=
  15 * (clipLower x 0) ^ ((1 : ℝ) / 3)

/-! ### The coincidence-detector wiring (lines 64 to 67) -/

/-- A synaptic weight matrix: weight from source neuron a to target
neuron b. -/
def Weights : Type := ℕ → ℕ → ℚ

/-- A single assignment C[s, t] = v on a weight matrix. -/
def setW (W : Weights) (s t : ℕ) (v : ℚ) : Weights :=
  fun a b => if a = s ∧ b = t then v else W a b

/-- The wiring loop (lines 64 to 67): starting from the all-zero matrix,
for each i below numIndices * cfN set C[i, i] = 1/2 (right ear) and
C[i + numIndices * cfN, i] = 1/2 (left ear). -/
def buildC (numIndices cfN : ℕ) : Weights :=
  (List.range (numIndices * cfN)).foldl
    (fun W i => setW (setW W i i (1/2)) (i + numIndices * cfN) i (1/2))
    (fun _ _ => 0)

/-! ### The spike-count decoder (lines 74 to 79)

Spike counts are natural numbers.  Line 77 divides the per-location sums
by their maximum as floating-point numbers; since every entry is at most
the maximum, the only degenerate case is an all-zero vector, where the
division is 0/0 = NaN.  NaN is modelled as the top element of
WithTop rat, because numpy argmax treats NaN as larger than every
number (it returns the index of the first NaN when one is present). -/

/-- numpy amax on a vector of natural numbers. -/
def amax (l : List ℕ) : ℕ := l.foldl max 0

/-- The float division of one spike count by the maximal count
(line 77); the result is NaN (top) when the maximum is zero, since in
the program the numerator is then also zero. -/
def fdiv (x m : ℕ) : WithTop ℚ :=
  if m = 0 then ⊤ else (((x : ℚ) / (m : ℚ) : ℚ) : WithTop ℚ)

/-- Lines 74 to 76: reshape the count vector to (numIndices, cfN) and
sum across the frequency axis; entry i is the sum of the i-th block of
cfN consecutive counts. -/
def perLocationSums (numIndices cfN : ℕ) (count : List ℕ) : List ℕ :=
  (List.range numIndices).map (fun i => ((count.drop (i * cfN)).take cfN).sum)

/-- Line 77: divide a vector of counts entrywise by its maximum. -/
def normalizeByMax (l : List ℕ) : List (WithTop ℚ) :=
  l.map (fun x => fdiv x (amax l))

/-- The normalized per-location score vector of the decoder
(lines 74 to 77). -/
def normalizedScores (numIndices cfN : ℕ) (count : List ℕ) : List (WithTop ℚ) :=
  normalizeByMax (perLocationSums numIndices cfN count)

/-- The scan underlying numpy argmax: i is the index of the next list
element, best the index of the running maximum, bv its value; a later
element replaces the running maximum only when strictly larger, so the
first occurrence of the maximum wins. -/
def argmaxFrom {α : Type} [LinearOrder α] : List α → ℕ → ℕ → α → ℕ
  | [], _, best, _ => best
  | x :: xs, i, best, bv =>
    if bv < x then argmaxFrom xs (i + 1) i x else argmaxFrom xs (i + 1) best bv

/-- numpy argmax: the index of the first occurrence of the maximum
(0 on the empty list). -/
def argmax {α : Type} [LinearOrder α] : List α → ℕ
  | [] => 0
  | x :: xs => argmaxFrom xs 1 0 x

/-- Line 79: the location estimate, the argmax of the normalized
per-location scores. -/
def index_guess (numIndices cfN : ℕ) (count : List ℕ) : ℕ :=
  argmax (normalizedScores numIndices cfN count)

/-! ### The decoding algorithm as the spec states it

These definitions follow the words of the spec (reshape to a 2-D array,
sum over the frequency axis, divide by the maximum, take the index of
the maximal normalized score); they are compared with the source-side
definitions above. -/

/-- Spec: the spike-count vector reshaped to a (numIndices, cfN)
array. -/
def specReshape (numIndices cfN : ℕ) (count : List ℕ) :
    Fin numIndices → Fin cfN → ℕ :=
  fun i j => count.getD (i.val * cfN + j.val) 0

/-- Spec: the per-location score, the sum over the frequency axis of the
reshaped array. -/
def specLocationScore (numIndices cfN : ℕ) (count : List ℕ)
    (i : Fin numIndices) : ℕ :=
  ∑ j : Fin cfN, specReshape numIndices cfN count i j

/-- Spec: the per-location score vector of length numIndices. -/
def specScores (numIndices cfN : ℕ) (count : List ℕ) : List ℕ :=
  (List.finRange numIndices).map (specLocationScore numIndices cfN count)

/-- Spec: the score vector divided by its maximum. -/
def specNormalized (numIndices cfN : ℕ) (count : List ℕ) : List ℚ :=
  (specScores numIndices cfN count).map
    (fun x : ℕ => (x : ℚ) / (amax (specScores numIndices cfN count) : ℚ))

/-- Spec: the index of the maximal score: the first index whose entry is
greater than or equal to every entry of the vector. -/
def specArgmax (l : List ℚ) : ℕ :=
  l.findIdx (fun x => l.all (fun y => decide (y ≤ x)))

/-- Spec: the estimated location. -/
def specEstimate (numIndices cfN : ℕ) (count : List ℕ) : ℕ :=
  specArgmax (specNormalized numIndices cfN count)

/-! ### Helper lemmas about amax -/

lemma foldl_max_init_le (l : List ℕ) : ∀ a : ℕ, a ≤ l.foldl max a := by
  induction l with
  | nil => intro a; exact le_refl a
  | cons x xs ih =>
    intro a
    exact le_trans (le_max_left a x) (ih (max a x))

lemma le_foldl_max (l : List ℕ) : ∀ (a x : ℕ), x ∈ l → x ≤ l.foldl max a := by
  induction l with
  | nil => intro a x hx; cases hx
  | cons y ys ih =>
    intro a x hx
    rcases List.mem_cons.mp hx with h | h
    · subst h
      exact le_trans (le_max_right a x) (foldl_max_init_le ys (max a x))
    · exact ih (max a y) x h

lemma foldl_max_mem (l : List ℕ) : ∀ a : ℕ, l.foldl max a ∈ l ∨ l.foldl max a = a := by
  induction l with
  | nil => intro a; exact Or.inr rfl
  | cons x xs ih =>
    intro a
    simp only [List.foldl_cons]
    rcases ih (max a x) with h | h
    · exact Or.inl (List.mem_cons_of_mem x h)
    · rw [h]
      rcases le_total a x with hax | hxa
      · rw [max_eq_right hax]
        exact Or.inl (List.mem_cons_self x xs)
      · rw [max_eq_left hxa]
        exact Or.inr rfl

lemma foldl_max_le (l : List ℕ) :
    ∀ (a c : ℕ), a ≤ c → (∀ x ∈ l, x ≤ c) → l.foldl max a ≤ c := by
  induction l with
  | nil => intro a c hac _; exact hac
  | cons x xs ih =>
    intro a c hac hall
    exact ih (max a x) c (max_le hac (hall x (List.mem_cons_self x xs)))
      (fun y hy => hall y (List.mem_cons_of_mem x hy))

lemma le_amax {l : List ℕ} {x : ℕ} (hx : x ∈ l) : x ≤ amax l :=
  le_foldl_max l 0 x hx

lemma amax_mem {l : List ℕ} (h : 0 < amax l) : amax l ∈ l := by
  rcases foldl_max_mem l 0 with hm | hm
  · exact hm
  · exact absurd (hm : amax l = 0) (Nat.pos_iff_ne_zero.mp h)

lemma amax_eq_zero {l : List ℕ} (h : ∀ x ∈ l, x = 0) : amax l = 0 :=
  Nat.le_zero.mp (foldl_max_le l 0 0 (le_refl 0) (fun x hx => le_of_eq (h x hx)))

/-! ### Helper lemmas about argmax -/

lemma argmaxFrom_lt {α : Type} [LinearOrder α] (l : List α) :
    ∀ (i best : ℕ) (bv : α), best < i → argmaxFrom l i best bv < i + l.length := by
  induction l with
  | nil => intro i best bv h; simpa using h
  | cons x xs ih =>
    intro i best bv h
    by_cases hx : bv < x
    · simp only [argmaxFrom, if_pos hx, List.length_cons]
      have := ih (i + 1) i x (Nat.lt_succ_self i)
      omega
    · simp only [argmaxFrom, if_neg hx, List.length_cons]
      have := ih (i + 1) best bv (Nat.lt_succ_of_lt h)
      omega

lemma argmax_lt_length {α : Type} [LinearOrder α] {l : List α} (h : l ≠ []) :
    argmax l < l.length := by
  cases l with
  | nil => exact absurd rfl h
  | cons x xs =>
    have := argmaxFrom_lt xs 1 0 x Nat.zero_lt_one
    simp only [argmax, List.length_cons]
    omega

lemma argmaxFrom_map {α β : Type} [LinearOrder α] [LinearOrder β]
    {f : α → β} (hf : StrictMono f) (l : List α) :
    ∀ (i best : ℕ) (bv : α),
      argmaxFrom (l.map f) i best (f bv) = argmaxFrom l i best bv := by
  induction l with
  | nil => intro i best bv; rfl
  | cons x xs ih =>
    intro i best bv
    by_cases hx : bv < x
    · simp only [List.map_cons, argmaxFrom, if_pos hx, if_pos (hf.lt_iff_lt.mpr hx)]
      exact ih (i + 1) i x
    · have : ¬ f bv < f x := fun hc => hx (hf.lt_iff_lt.mp hc)
      simp only [List.map_cons, argmaxFrom, if_neg hx, if_neg this]
      exact ih (i + 1) best bv

lemma argmax_map {α β : Type} [LinearOrder α] [LinearOrder β]
    {f : α → β} (hf : StrictMono f) (l : List α) :
    argmax (l.map f) = argmax l := by
  cases l with
  | nil => rfl
  | cons x xs => simpa [argmax] using argmaxFrom_map hf xs 1 0 x

/-- Full characterization of the argmax scan: either no list element
exceeds the running maximum and the running index is returned, or the
result points at the first element that exceeds the running maximum and
is maximal in the list. -/
lemma argmaxFrom_spec {α : Type} [LinearOrder α] (d : α) (l : List α) :
    ∀ (i best : ℕ) (bv : α),
      (argmaxFrom l i best bv = best ∧ ∀ x ∈ l, x ≤ bv) ∨
      (∃ j, j < l.length ∧ argmaxFrom l i best bv = i + j ∧ bv < l.getD j d ∧
        (∀ k, k < j → l.getD k d < l.getD j d) ∧
        (∀ k, k < l.length → l.getD k d ≤ l.getD j d)) := by
  induction l with
  | nil =>
    intro i best bv
    exact Or.inl ⟨rfl, by simp⟩
  | cons x xs ih =>
    intro i best bv
    by_cases hx : bv < x
    · simp only [argmaxFrom, if_pos hx]
      rcases ih (i + 1) i x with ⟨heq, hall⟩ | ⟨j, hj, heq, hlt, hfirst, hmax⟩
      · refine Or.inr ⟨0, by simp, by simpa using heq, by simpa using hx, ?_, ?_⟩
        · intro k hk; omega
        · intro k hk
          cases k with
          | zero => simp
          | succ m =>
            simp only [List.getD_cons_succ, List.getD_cons_zero]
            have hm : m < xs.length := by simpa using hk
            have hmem : xs.getD m d ∈ xs := by
              rw [List.getD_eq_getElem xs d hm]
              exact List.getElem_mem hm
            exact hall _ hmem
      · refine Or.inr ⟨j + 1, by simpa using hj, by rw [heq]; omega, ?_, ?_, ?_⟩

        · exact lt_trans hx (by simpa using hlt)
        · intro k hk
          cases k with
          | zero =>
            simpa using (by simpa using hlt : x < xs.getD j d)
          | succ m =>
            simp only [List.getD_cons_succ]
            exact hfirst m (by omega)
        · intro k hk
          cases k with
          | zero =>
            simpa using le_of_lt (by simpa using hlt : x < xs.getD j d)
          | succ m =>
            simp only [List.getD_cons_succ]
            exact hmax m (by simpa using hk)
    · have hxb : x ≤ bv := le_of_not_lt hx
      simp only [argmaxFrom, if_neg hx]
      rcases ih (i + 1) best bv with ⟨heq, hall⟩ | ⟨j, hj, heq, hlt, hfirst, hmax⟩
      · refine Or.inl ⟨heq, ?_⟩
        intro y hy
        rcases List.mem_cons.mp hy with h | h
        · exact h ▸ hxb
        · exact hall y h
      · refine Or.inr ⟨j + 1, by simpa using hj, by rw [heq]; omega, ?_, ?_, ?_⟩
        · simpa using hlt
        · intro k hk
          cases k with
          | zero =>
            simpa using lt_of_le_of_lt hxb hlt
          | succ m =>
            simp only [List.getD_cons_succ]
            exact hfirst m (by omega)
        · intro k hk
          cases k with
          | zero =>
            simpa using le_of_lt (lt_of_le_of_lt hxb hlt)
          | succ m =>
            simp only [List.getD_cons_succ]
            exact hmax m (by simpa using hk)

/-- The argmax of a nonempty list is in bounds, its entry is maximal,
and every earlier entry is strictly smaller. -/
lemma argmax_spec {α : Type} [LinearOrder α] (d : α) {l : List α} (h : l ≠ []) :
    argmax l < l.length ∧
      (∀ m, m < l.length → l.getD m d ≤ l.getD (argmax l) d) ∧
      (∀ m, m < argmax l → l.getD m d < l.getD (argmax l) d) := by
  refine ⟨argmax_lt_length h, ?_⟩
  cases l with
  | nil => exact absurd rfl h
  | cons x xs =>
    show (∀ m, m < (x :: xs).length →
        (x :: xs).getD m d ≤ (x :: xs).getD (argmaxFrom xs 1 0 x) d) ∧
      (∀ m, m < argmaxFrom xs 1 0 x →
        (x :: xs).getD m d < (x :: xs).getD (argmaxFrom xs 1 0 x) d)
    rcases argmaxFrom_spec d xs 1 0 x with ⟨heq, hall⟩ | ⟨j, hj, heq0, hlt, hfirst, hmax⟩
    swap
    · have heq : argmaxFrom xs 1 0 x = j + 1 := by omega
      rw [heq]
      constructor
      · intro m hm
        cases m with
        | zero =>
          simpa using le_of_lt hlt
        | succ k =>
          simp only [List.getD_cons_succ]
          exact hmax k (by simpa using hm)
      · intro m hm
        cases m with
        | zero =>
          simpa using hlt
        | succ k =>
          simp only [List.getD_cons_succ]
          exact hfirst k (by omega)
    · rw [heq]
      constructor
      · intro m hm
        cases m with
        | zero => simp
        | succ k =>
          simp only [List.getD_cons_succ, List.getD_cons_zero]
          have hk : k < xs.length := by simpa using hm
          have hmem : xs.getD k d ∈ xs := by
            rw [List.getD_eq_getElem xs d hk]
            exact List.getElem_mem hk
          exact hall _ hmem
      · intro m hm; omega

/-- The first-maximum scan agrees with the declarative description of
the argmax: the first index whose entry is greater than or equal to
every entry of the list. -/
lemma argmax_eq_findIdx {α : Type} [LinearOrder α] {l : List α} (h : l ≠ []) :
    argmax l = l.findIdx (fun x => l.all (fun y => decide (y ≤ x))) := by
  obtain ⟨d, t, hdt⟩ := List.exists_cons_of_ne_nil h
  obtain ⟨hlt, hmax, hfirst⟩ := argmax_spec d h
  symm
  rw [List.findIdx_eq hlt]
  constructor
  · rw [List.all_eq_true]
    intro y hy
    obtain ⟨m, hm, rfl⟩ := List.mem_iff_getElem.mp hy
    simp only [decide_eq_true_eq]
    have := hmax m hm
    rwa [List.getD_eq_getElem l d hm, List.getD_eq_getElem l d hlt] at this
  · intro j hj
    have hjl : j < l.length := lt_trans hj hlt
    rw [List.all_eq_false]
    refine ⟨l.get ⟨argmax l, hlt⟩, List.get_mem l (argmax l) hlt, ?_⟩
    simp only [decide_eq_true_eq, List.get_eq_getElem]
    have := hfirst j hj
    rw [List.getD_eq_getElem l d hjl, List.getD_eq_getElem l d hlt] at this
    exact not_le.mpr this

/-! ### Relating the source-side and spec-side decoders -/

/-- The sum of a block of n consecutive entries, written with take and
drop, equals the sum of the entries read off by position (out-of-range
positions contribute the default 0 on both sides). -/
lemma sum_take_drop (count : List ℕ) :
    ∀ (n s : ℕ),
      ((count.drop s).take n).sum = ∑ j ∈ Finset.range n, count.getD (s + j) 0 := by
  intro n
  induction n with
  | zero => intro s; simp
  | succ m ih =>
    intro s
    rw [List.take_succ, List.sum_append, ih s, Finset.sum_range_succ]
    congr 1
    rw [List.getElem?_drop]
    cases h : count[s + m]? with
    | none => simp [h]
    | some a => simp [h]

/-- The per-location score vector of the spec (reshape to a 2-D array,
then sum over the frequency axis) equals the per-location sums computed
by the source. -/
lemma specScores_eq (numIndices cfN : ℕ) (count : List ℕ) :
    specScores numIndices cfN count = perLocationSums numIndices cfN count := by
  unfold specScores perLocationSums specLocationScore specReshape
  rw [← List.map_coe_finRange numIndices, List.map_map]
  refine List.map_congr_left ?_
  intro i _
  rw [Fin.sum_univ_eq_sum_range (fun j => count.getD (i.val * cfN + j) 0) cfN]
  rw [Function.comp_apply, sum_take_drop count cfN (i.val * cfN)]

/-- On a vector with a positive maximum, the float normalization
produces no NaN: it is the rational division, coerced. -/
lemma normalizeByMax_of_pos {l : List ℕ} (h : 0 < amax l) :
    normalizeByMax l =
      List.map (fun q : ℚ => (q : WithTop ℚ))
        (l.map (fun x : ℕ => (x : ℚ) / (amax l : ℚ))) := by
  rw [List.map_map]
  unfold normalizeByMax
  refine List.map_congr_left ?_
  intro x _
  simp [fdiv, Nat.pos_iff_ne_zero.mp h, Function.comp]

lemma length_perLocationSums (numIndices cfN : ℕ) (count : List ℕ) :
    (perLocationSums numIndices cfN count).length = numIndices := by
  simp [perLocationSums]

lemma length_normalizedScores (numIndices cfN : ℕ) (count : List ℕ) :
    (normalizedScores numIndices cfN count).length = numIndices := by
  simp [normalizedScores, normalizeByMax, length_perLocationSums]

/-! ### Remaining helper lemmas -/

lemma length_repeatChannels (source : List Signal) (k : ℕ) :
    (repeatChannels source k).length = source.length * k := by
  unfold repeatChannels
  induction source with
  | nil => simp
  | cons c cs ih =>
    simp only [List.flatMap_cons, List.length_append, List.length_replicate, ih,
      List.length_cons]
    ring

lemma length_hrtfsetImpulseResponses (hs : HRTFSet) :
    (hrtfsetImpulseResponses hs).length = 2 * hs.numIndices := by
  simp only [hrtfsetImpulseResponses, List.length_append, List.length_map,
    List.length_range]
  ring

lemma buildC_foldl (N : ℕ) (a b : ℕ) : ∀ n : ℕ,
    ((List.range n).foldl
        (fun W i => setW (setW W i i (1/2)) (i + N) i (1/2))
        (fun _ _ => 0) : Weights) a b
      = if b < n ∧ (a = b ∨ a = b + N) then 1/2 else 0 := by
  intro n
  induction n with
  | zero => simp
  | succ m ih =>
    rw [List.range_succ, List.foldl_append, List.foldl_cons, List.foldl_nil]
    show (if a = m + N ∧ b = m then (1/2 : ℚ)
        else if a = m ∧ b = m then 1/2
        else (List.range m).foldl
          (fun W i => setW (setW W i i (1/2)) (i + N) i (1/2))
          (fun _ _ => 0) a b) = _
    rw [ih]
    by_cases h1 : a = m + N ∧ b = m
    · rw [if_pos h1, if_pos ⟨by omega, Or.inr (by omega)⟩]
    · rw [if_neg h1]
      by_cases h2 : a = m ∧ b = m
      · rw [if_pos h2, if_pos ⟨by omega, Or.inl (by omega)⟩]
      · rw [if_neg h2]
        exact if_congr (by omega) rfl rfl

/-! ### The claims -/

/-- C1: the decoder implements exactly the stated algorithm: on a
spike-count vector of length numIndices * cfN whose per-location sums
have a positive maximum (so that the normalization is numerically
defined), the source-side estimate equals the estimate of the described
algorithm (reshape to a (numIndices, cfN) array, sum over the frequency
axis, divide by the maximum, take the index of the maximal normalized
score), and the source-side per-location score vector equals the
spec-side one. -/
theorem claim_C1_decoder_matches_spec (numIndices cfN : ℕ) (count : List ℕ)
    (_hlen : count.length = numIndices * cfN)
    (hpos : 0 < amax (perLocationSums numIndices cfN count)) :
    index_guess numIndices cfN count = specEstimate numIndices cfN count ∧
      specScores numIndices cfN count = perLocationSums numIndices cfN count := by
  have hscores : specScores numIndices cfN count = perLocationSums numIndices cfN count :=
    specScores_eq numIndices cfN count
  refine ⟨?_, hscores⟩
  have hne : perLocationSums numIndices cfN count ≠ [] := by
    intro hnil
    rw [hnil] at hpos
    simp [amax] at hpos
  have hqne : ((perLocationSums numIndices cfN count).map
      (fun x : ℕ => (x : ℚ) / (amax (perLocationSums numIndices cfN count) : ℚ))) ≠ [] := by
    simpa using hne
  have hnorm : specNormalized numIndices cfN count
      = (perLocationSums numIndices cfN count).map
          (fun x : ℕ => (x : ℚ) / (amax (perLocationSums numIndices cfN count) : ℚ)) := by
    unfold specNormalized
    rw [hscores]
  unfold index_guess specEstimate specArgmax normalizedScores
  rw [normalizeByMax_of_pos hpos, argmax_map WithTop.coe_strictMono,
    argmax_eq_findIdx hqne, hnorm]

theorem claim_C1_witness :
    index_guess 2 2 [0, 1, 0, 2] = specEstimate 2 2 [0, 1, 0, 2] ∧
      specScores 2 2 [0, 1, 0, 2] = perLocationSums 2 2 [0, 1, 0, 2] :=
  claim_C1_decoder_matches_spec 2 2 [0, 1, 0, 2] (by decide) (by decide)

/-- C2: the binaural filter stage filters the sound with the HRTF of the
chosen location, producing 2 channels, and then swaps them: channel 0 of
the swapped output is channel 1 of the filtered signal and channel 1 is
channel 0. -/
theorem claim_C2_swapped_channels (h : HRTF) (sound : Signal) :
    (swapped_channels h sound).getD 0 zeroSignal
        = (hrtf_fb h sound).getD 1 zeroSignal ∧
      (swapped_channels h sound).getD 1 zeroSignal
        = (hrtf_fb h sound).getD 0 zeroSignal :=
  ⟨rfl, rfl⟩

/-- C3, as claimed, is false: the exhaustive spatial filter bank applied
to the swapped 2-channel signal does not have numIndices output
channels.  Concretely, for a set of 3 locations the output has 6
channels. -/
theorem claim_C3_counterexample :
    (hrtfset_fb ⟨3, fun _ => ⟨zeroSignal, zeroSignal⟩⟩
        [zeroSignal, zeroSignal]).length
      ≠ (HRTFSet.mk 3 (fun _ => ⟨zeroSignal, zeroSignal⟩)).numIndices := by
  decide

/-- C3 amended: the exhaustive spatial filter bank re-applies every
impulse response of the HRTF set to the (repeated) swapped 2-channel
signal and produces one pair of candidate-location hypothesis channels
(one per ear) per stored location: its output has 2 * numIndices
channels. -/
theorem claim_C3_channel_count (hs : HRTFSet) (input : List Signal)
    (h : input.length = 2) :
    (hrtfset_fb hs input).length = 2 * hs.numIndices := by
  unfold hrtfset_fb firFilterbank
  rw [List.length_map, List.length_zip, length_hrtfsetImpulseResponses,
    length_repeatChannels, h, Nat.min_self]

theorem claim_C3_witness :
    (hrtfset_fb ⟨1, fun _ => ⟨zeroSignal, zeroSignal⟩⟩
        [zeroSignal, zeroSignal]).length
      = 2 * (HRTFSet.mk 1 (fun _ => ⟨zeroSignal, zeroSignal⟩)).numIndices :=
  claim_C3_channel_count _ _ (by decide)

/-- C4: the cochlear static nonlinearity is half-wave rectification
followed by a compressive power law: the output is
15 * (max(x, 0)) ** (1/3), it is nonnegative, and negative inputs map
to 0. -/
theorem claim_C4_cochlea_nonlinearity (x : ℝ) :
    cochleaFn x = 15 * (max x 0) ^ ((1 : ℝ) / 3) ∧
      0 ≤ cochleaFn x ∧ (x < 0 → cochleaFn x = 0) := by
  refine ⟨rfl, ?_, ?_⟩
  · unfold cochleaFn clipLower
    exact mul_nonneg (by norm_num) (Real.rpow_nonneg (le_max_right x 0) _)
  · intro hx
    unfold cochleaFn clipLower
    rw [max_eq_right (le_of_lt hx), Real.zero_rpow (by norm_num), mul_zero]

theorem claim_C4_witness : cochleaFn (-1) = 0 :=
  (claim_C4_cochlea_nonlinearity (-1)).2.2 (by norm_num)

/-- C5: in the connection matrix built by the wiring loop, every
coincidence-detector unit i below numIndices * cfN receives weight 1/2
from source unit i and weight 1/2 from source unit
i + numIndices * cfN, and weight 0 from every other source unit. -/
theorem claim_C5_connection_matrix (numIndices cfN i s : ℕ)
    (hi : i < numIndices * cfN) :
    buildC numIndices cfN s i
      = if s = i ∨ s = i + numIndices * cfN then 1/2 else 0 := by
  unfold buildC
  rw [buildC_foldl]
  exact if_congr (by omega) rfl rfl

theorem claim_C5_witness : buildC 1 2 0 0 = 1/2 :=
  (claim_C5_connection_matrix 1 2 0 0 (by decide)).trans (if_pos (Or.inl rfl))

/-- C6: the decoder has no guard for degenerate spike counts.  When
every entry of the count vector is zero, the float division is 0/0 and
every normalized per-location score is NaN (modelled as top), with
nothing catching or recovering the value; when the maximum of the
per-location sums is positive, no score is NaN. -/
theorem claim_C6_degenerate_counts (numIndices cfN : ℕ) (count : List ℕ) :
    ((∀ x ∈ count, x = 0) →
        normalizedScores numIndices cfN count = List.replicate numIndices ⊤) ∧
      (0 < amax (perLocationSums numIndices cfN count) →
        ⊤ ∉ normalizedScores numIndices cfN count) := by
  constructor
  · intro hz
    have hs : ∀ y ∈ perLocationSums numIndices cfN count, y = 0 := by
      unfold perLocationSums
      intro y hy
      obtain ⟨i, _, rfl⟩ := List.mem_map.mp hy
      apply List.sum_eq_zero
      intro z hz2
      exact hz z (List.mem_of_mem_drop (List.mem_of_mem_take hz2))
    have hm : amax (perLocationSums numIndices cfN count) = 0 := amax_eq_zero hs
    unfold normalizedScores normalizeByMax
    rw [hm]
    have hfd : ∀ x ∈ perLocationSums numIndices cfN count,
        fdiv x 0 = (⊤ : WithTop ℚ) := fun x _ => if_pos rfl
    rw [List.map_congr_left hfd, List.map_const', length_perLocationSums]
  · intro hpos hmem
    unfold normalizedScores normalizeByMax at hmem
    obtain ⟨x, _, hx⟩ := List.mem_map.mp hmem
    unfold fdiv at hx
    rw [if_neg (Nat.pos_iff_ne_zero.mp hpos)] at hx
    exact WithTop.coe_ne_top hx

theorem claim_C6_witness :
    normalizedScores 2 1 [0, 0] = List.replicate 2 ⊤ ∧
      ⊤ ∉ normalizedScores 2 1 [1, 0] :=
  ⟨(claim_C6_degenerate_counts 2 1 [0, 0]).1 (by decide),
    (claim_C6_degenerate_counts 2 1 [1, 0]).2 (by decide)⟩

/-- C7: the decoding step is fully deterministic: two runs of the
reduction on the same spike-count vector (with positive maximum) give
identical normalized scores and the identical estimated location. -/
theorem claim_C7_deterministic (numIndices cfN : ℕ) (c1 c2 : List ℕ)
    (h : c1 = c2) (_hpos : 0 < amax (perLocationSums numIndices cfN c1)) :
    normalizedScores numIndices cfN c1 = normalizedScores numIndices cfN c2 ∧
      index_guess numIndices cfN c1 = index_guess numIndices cfN c2 := by
  subst h
  exact ⟨rfl, rfl⟩

theorem claim_C7_witness :
    normalizedScores 1 1 [1] = normalizedScores 1 1 [1] ∧
      index_guess 1 1 [1] = index_guess 1 1 [1] :=
  claim_C7_deterministic 1 1 [1] [1] rfl (by decide)

/-- C8: normalization does not change the estimate: when the
per-location sums have a positive maximum, the argmax of the normalized
score vector equals the argmax of the raw per-location sums. -/
theorem claim_C8_normalization_irrelevant (numIndices cfN : ℕ) (count : List ℕ)
    (hpos : 0 < amax (perLocationSums numIndices cfN count)) :
    index_guess numIndices cfN count
      = argmax (perLocationSums numIndices cfN count) := by
  have hm : (0 : ℚ) < (amax (perLocationSums numIndices cfN count) : ℚ) := by
    exact_mod_cast hpos
  have hdiv : StrictMono
      (fun x : ℕ => (x : ℚ) / (amax (perLocationSums numIndices cfN count) : ℚ)) := by
    intro a b hab
    exact (div_lt_div_iff_of_pos_right hm).mpr (by exact_mod_cast hab)
  unfold index_guess normalizedScores
  rw [normalizeByMax_of_pos hpos, argmax_map WithTop.coe_strictMono,
    argmax_map hdiv]

theorem claim_C8_witness : index_guess 2 1 [1, 2] = argmax (perLocationSums 2 1 [1, 2]) :=
  claim_C8_normalization_irrelevant 2 1 [1, 2] (by decide)

/-- C9: on a per-location sum vector with (nonnegative) natural entries
and positive maximum, every normalized entry is the rational division by
the maximum, lies in [0, 1], and the value 1 is attained by some
entry. -/
theorem claim_C9_normalized_range (l : List ℕ) (x : ℕ)
    (hpos : 0 < amax l) (hx : x ∈ l) :
    fdiv x (amax l) = (((x : ℚ) / (amax l : ℚ) : ℚ) : WithTop ℚ) ∧
      0 ≤ (x : ℚ) / (amax l : ℚ) ∧ (x : ℚ) / (amax l : ℚ) ≤ 1 ∧
      (((1 : ℚ) : WithTop ℚ)) ∈ normalizeByMax l := by
  have hm0 : amax l ≠ 0 := Nat.pos_iff_ne_zero.mp hpos
  have hmQ : (0 : ℚ) < (amax l : ℚ) := by exact_mod_cast hpos
  refine ⟨if_neg hm0, ?_, ?_, ?_⟩
  · exact div_nonneg (by positivity) (le_of_lt hmQ)
  · rw [div_le_one hmQ]
    exact_mod_cast le_amax hx
  · refine List.mem_map.mpr ⟨amax l, amax_mem hpos, ?_⟩
    unfold fdiv
    rw [if_neg hm0, div_self (ne_of_gt hmQ)]

theorem claim_C9_witness :
    fdiv 1 (amax [1, 2]) = (((1 : ℚ) / ((amax [1, 2] : ℕ) : ℚ) : ℚ) : WithTop ℚ) ∧
      0 ≤ (1 : ℚ) / ((amax [1, 2] : ℕ) : ℚ) ∧
      (1 : ℚ) / ((amax [1, 2] : ℕ) : ℚ) ≤ 1 ∧
      (((1 : ℚ) : WithTop ℚ)) ∈ normalizeByMax [1, 2] :=
  claim_C9_normalized_range [1, 2] 1 (by decide) (by decide)

/-- C10: both plotted indices are in bounds: any true index below
numIndices and the estimate (the argmax of a length-numIndices score
vector) are valid positions in the length-numIndices coordinate
arrays. -/
theorem claim_C10_indices_in_bounds (numIndices cfN : ℕ) (count : List ℕ)
    (index : ℕ) (azim elev : List ℚ)
    (hn : 1 ≤ numIndices) (hidx : index < numIndices)
    (ha : azim.length = numIndices) (he : elev.length = numIndices) :
    index < azim.length ∧ index < elev.length ∧
      index_guess numIndices cfN count < azim.length ∧
      index_guess numIndices cfN count < elev.length := by
  have hlen := length_normalizedScores numIndices cfN count
  have hne : normalizedScores numIndices cfN count ≠ [] := by
    intro hnil
    rw [hnil] at hlen
    simp at hlen
    omega
  have hg : index_guess numIndices cfN count < numIndices := by
    have := argmax_lt_length hne
    rwa [hlen] at this
  exact ⟨by omega, by omega, by omega, by omega⟩

theorem claim_C10_witness :
    1 < ([0, 1] : List ℚ).length ∧ 1 < ([2, 3] : List ℚ).length ∧
      index_guess 2 1 [0, 0] < ([0, 1] : List ℚ).length ∧
      index_guess 2 1 [0, 0] < ([2, 3] : List ℚ).length :=
  claim_C10_indices_in_bounds 2 1 [0, 0] 1 [0, 1] [2, 3]
    (by decide) (by decide) (by decide) (by decide)

end SoundLoc

